import Mathlib

/-!
Shallow embedding of the OT-EVS quantum generative model notebook
(`OT-EVS_Fashion_Experiments_Conventional_Measurements.ipynb`) and proofs
about its claims.

Conventions of the embedding:
* Machine floats are modelled as rationals (`ℚ`); the float primitives
  `jnp.sqrt` / `np.sqrt` and `jax.random.normal` are kept as explicit
  function parameters (`sq : ℚ → ℚ`, `nrm : ℕ → ℚ`) because their exact
  float values never matter for the claims; monotonicity of the square
  root is added as a hypothesis where a proof needs it.
* JAX PRNG keys are modelled as natural numbers; `jax.random.split key n`
  is modelled as the list `[pair key 0, …, pair key (n-1)]` with `Nat.pair`,
  which captures the functional contract of `split` (deterministic, and the
  derived keys are pairwise distinct and differ from the parent).
* External neural-network and quantum-simulation primitives
  (`tensorcircuit` expectation values, `eqx.nn.Linear`, the critic MLP,
  `optax` optimizer transforms, autodifferentiation) are uninterpreted
  function parameters: the claims under study are about how the notebook
  composes them, not about their internals.
-/

namespace OTEVS

/-- `jnp.clip(x, lo, hi)`. -/
def clip (x lo hi : ℚ) : ℚ := min (max x lo) hi

/-- `np.mean` / `jnp.mean` of a 1-D array. -/
def mean (l : List ℚ) : ℚ := l.sum / (l.length : ℚ)

/-! ## ShotNoiseModel (source: `add_sampling_error` inside `train`) -/

/-- Source `add_sampling_error(exact, n_shots, key)`:
`p = clip((1-exact)/2, 0, 1)`, `mean = n_shots * p`,
`std = sqrt(clip(n_shots*p*(1-p), min=1e-16))`,
result `1 - 2*clip((normal(key)*std + mean)/n_shots, 0, 1)`.
`sq` embeds `jnp.sqrt`, `nrm` embeds `jax.random.normal` on a key. -/
def add_sampling_error (sq : ℚ → ℚ) (nrm : ℕ → ℚ) (exact n_shots : ℚ) (key : ℕ) : ℚ :=
  let p := clip ((1 - exact) / 2) 0 1
  let mu := n_shots * p
  let std := sq (max (n_shots * p * (1 - p)) (1 / 10 ^ 16))
  1 - 2 * clip ((nrm key * std + mu) / n_shots) 0 1

/-- The shot-noise map as the spec words it: given exact value `e` and shot
count `n`, take `p = clip((1-e)/2,0,1)`, draw a Gaussian sample with mean
`n·p` and standard deviation `sqrt(max(n·p·(1-p), ε_floor))` (the draw is
`nrm key`, deterministic given the seed token), and return
`1 - 2·clip(sample/n, 0, 1)`. -/
def shotNoiseModelSpec (sq : ℚ → ℚ) (nrm : ℕ → ℚ) (e n : ℚ) (key : ℕ) : ℚ :=
  let p := clip ((1 - e) / 2) 0 1
  let sample := nrm key * sq (max (n * p * (1 - p)) (1 / 10 ^ 16)) + n * p
  1 - 2 * clip (sample / n) 0 1

theorem clip_mem_Icc (x lo hi : ℚ) (h : lo ≤ hi) : lo ≤ clip x lo hi ∧ clip x lo hi ≤ hi := by
  unfold clip
  constructor
  · exact le_min (le_max_right x lo) h
  · exact min_le_right _ _

/-- C5: the shot-noise model is exactly the claimed clipped-Gaussian map, and
its output lies in `[-1, 1]` for every shot count and every (even
out-of-range) exact input, for every value of the underlying Gaussian draw. -/
theorem shotNoise_form_and_range (sq : ℚ → ℚ) (nrm : ℕ → ℚ) (e n : ℚ) (key : ℕ) :
    add_sampling_error sq nrm e n key = shotNoiseModelSpec sq nrm e n key ∧
    -1 ≤ add_sampling_error sq nrm e n key ∧ add_sampling_error sq nrm e n key ≤ 1 := by
  refine ⟨rfl, ?_, ?_⟩ <;>
  · unfold add_sampling_error
    have h := clip_mem_Icc ((nrm key * sq (max (n * clip ((1 - e) / 2) 0 1 *
      (1 - clip ((1 - e) / 2) 0 1)) (1 / 10 ^ 16)) + n * clip ((1 - e) / 2) 0 1) / n) 0 1
      (by norm_num)
    simp only []
    linarith [h.1, h.2]

/-! ## ObservableEnumerator (source: `get_all_k_local_observables`) -/

/-- `itertools.product([0, 1, 2, 3], repeat=nq)`: all index tuples of length
`nq` over `{0,1,2,3}` in lexicographic order (the first coordinate is the
outermost loop, exactly as `product` iterates). -/
def pauliTuples : ℕ → List (List (Fin 4))
  | 0 => [[]]
  | n + 1 =>
      (pauliTuples n).map (fun t => (0 : Fin 4) :: t) ++
      ((pauliTuples n).map (fun t => (1 : Fin 4) :: t) ++
      ((pauliTuples n).map (fun t => (2 : Fin 4) :: t) ++
      (pauliTuples n).map (fun t => (3 : Fin 4) :: t)))

/-- `sum(1 for x in t if x == 0)`: the number of identity sites of a tuple. -/
def zeros (t : List (Fin 4)) : ℕ := t.countP (fun a => decide (a = 0))

/-- Number of non-identity sites of a tuple. -/
def supp (t : List (Fin 4)) : ℕ := t.countP (fun a => decide (a ≠ 0))

/-- Source `get_all_k_local_observables(nq, k)`: keep the tuples `t` with
`sum(1 for x in t if x == 0) >= nq - k` and `sum(1 for x in t if x == 0) < nq`.
The locality `k` is an integer because the Python source also accepts
out-of-range values, which claim C8 is about. -/
def get_all_k_local_observables (nq : ℕ) (k : ℤ) : List (List (Fin 4)) :=
  (pauliTuples nq).filter
    (fun t => decide ((nq : ℤ) - k ≤ (zeros t : ℤ)) && decide ((zeros t : ℤ) < (nq : ℤ)))

theorem zeros_cons (a : Fin 4) (t : List (Fin 4)) :
    zeros (a :: t) = zeros t + (if a = 0 then 1 else 0) := by
  unfold zeros
  rw [List.countP_cons]
  by_cases h : a = 0 <;> simp [h]

theorem supp_cons (a : Fin 4) (t : List (Fin 4)) :
    supp (a :: t) = supp t + (if a = 0 then 0 else 1) := by
  unfold supp
  rw [List.countP_cons]
  by_cases h : a = 0 <;> simp [h]

theorem zeros_add_supp (t : List (Fin 4)) : zeros t + supp t = t.length := by
  induction t with
  | nil => rfl
  | cons a t ih =>
    rw [zeros_cons, supp_cons]
    by_cases h : a = 0 <;> simp [h] <;> omega

theorem mem_pauliTuples {n : ℕ} {t : List (Fin 4)} :
    t ∈ pauliTuples n ↔ t.length = n := by
  induction n generalizing t with
  | zero => cases t <;> simp [pauliTuples]
  | succ n ih =>
    cases t with
    | nil => simp [pauliTuples]
    | cons a t =>
      simp only [pauliTuples, List.mem_append, List.mem_map, List.length_cons]
      constructor
      · rintro (⟨s, hs, h⟩ | ⟨s, hs, h⟩ | ⟨s, hs, h⟩ | ⟨s, hs, h⟩) <;>
          (cases h; rw [ih.1 hs])
      · intro h
        have ht : t ∈ pauliTuples n := ih.2 (by omega)
        fin_cases a
        · exact Or.inl ⟨t, ht, rfl⟩
        · exact Or.inr (Or.inl ⟨t, ht, rfl⟩)
        · exact Or.inr (Or.inr (Or.inl ⟨t, ht, rfl⟩))
        · exact Or.inr (Or.inr (Or.inr ⟨t, ht, rfl⟩))

theorem pauliTuples_sorted (n : ℕ) :
    (pauliTuples n).Pairwise (List.Lex (· < ·)) := by
  induction n with
  | zero => simp [pauliTuples]
  | succ n ih =>
    have hmap : ∀ a : Fin 4,
        ((pauliTuples n).map (fun t => a :: t)).Pairwise (List.Lex (· < ·)) := by
      intro a
      rw [List.pairwise_map]
      exact ih.imp (fun h => List.Lex.cons h)
    have hcross : ∀ (a b : Fin 4), a < b → ∀ x ∈ (pauliTuples n).map (fun t => a :: t),
        ∀ y ∈ (pauliTuples n).map (fun t => b :: t), List.Lex (· < ·) x y := by
      rintro a b hab x hx y hy
      obtain ⟨s, _, rfl⟩ := List.mem_map.1 hx
      obtain ⟨u, _, rfl⟩ := List.mem_map.1 hy
      exact List.Lex.rel hab
    unfold pauliTuples
    rw [List.pairwise_append]
    refine ⟨hmap 0, ?_, ?_⟩
    · rw [List.pairwise_append]
      refine ⟨hmap 1, ?_, ?_⟩
      · rw [List.pairwise_append]
        refine ⟨hmap 2, hmap 3, ?_⟩
        exact fun x hx y hy => hcross 2 3 (by decide) x hx y hy
      · intro x hx y hy
        rcases List.mem_append.1 hy with h | h
        · exact hcross 1 2 (by decide) x hx y h
        · exact hcross 1 3 (by decide) x hx y h
    · intro x hx y hy
      rcases List.mem_append.1 hy with h | h
      · exact hcross 0 1 (by decide) x hx y h
      rcases List.mem_append.1 h with h | h
      · exact hcross 0 2 (by decide) x hx y h
      · exact hcross 0 3 (by decide) x hx y h

theorem not_lex_self : ∀ (x : List (Fin 4)), ¬ List.Lex (· < ·) x x := by
  intro x
  induction x with
  | nil => intro h; cases h
  | cons a l ih =>
    intro h
    cases h with
    | cons h => exact ih h
    | rel h => exact lt_irrefl a h

theorem pauliTuples_nodup (n : ℕ) : (pauliTuples n).Nodup := by
  refine (pauliTuples_sorted n).imp ?_
  intro a b hab he
  subst he
  exact not_lex_self a hab

theorem pauliTuples_succ (n : ℕ) : pauliTuples (n + 1) =
    (pauliTuples n).map (fun t => (0 : Fin 4) :: t) ++
    ((pauliTuples n).map (fun t => (1 : Fin 4) :: t) ++
    ((pauliTuples n).map (fun t => (2 : Fin 4) :: t) ++
    (pauliTuples n).map (fun t => (3 : Fin 4) :: t))) := rfl

/-- Count of length-`n` tuples with non-identity support exactly `j`. -/
def suppCount (n j : ℕ) : ℕ := (pauliTuples n).countP (fun t => decide (supp t = j))

theorem countP_cons_head (a : Fin 4) (m : ℕ) (p : ℕ → ℕ) (hp : ∀ t, supp (a :: t) = p (supp t)) (P : List (List (Fin 4))) :
    (P.map (fun t => a :: t)).countP (fun t => decide (supp t = m)) =
      P.countP (fun t => decide (p (supp t) = m)) := by
  rw [List.countP_map]
  apply List.countP_congr
  intro t _
  simp [Function.comp, hp t]

theorem suppCount_succ_succ (n j : ℕ) :
    suppCount (n + 1) (j + 1) = suppCount n (j + 1) + 3 * suppCount n j := by
  have h0 : ∀ t, supp ((0 : Fin 4) :: t) = supp t := by
    intro t; rw [supp_cons]; simp
  have h1 : ∀ (a : Fin 4), a ≠ 0 → ∀ t, supp (a :: t) = supp t + 1 := by
    intro a ha t; rw [supp_cons]; simp [ha]
  unfold suppCount
  rw [pauliTuples_succ, List.countP_append, List.countP_append, List.countP_append]
  rw [countP_cons_head 0 (j + 1) (fun s => s) h0,
      countP_cons_head 1 (j + 1) (fun s => s + 1) (h1 1 (by decide)),
      countP_cons_head 2 (j + 1) (fun s => s + 1) (h1 2 (by decide)),
      countP_cons_head 3 (j + 1) (fun s => s + 1) (h1 3 (by decide))]
  have he : (pauliTuples n).countP (fun t => decide (supp t + 1 = j + 1)) =
      (pauliTuples n).countP (fun t => decide (supp t = j)) := by
    apply List.countP_congr
    intro t _
    simp
  rw [he]
  omega

theorem suppCount_succ_zero (n : ℕ) : suppCount (n + 1) 0 = suppCount n 0 := by
  have h0 : ∀ t, supp ((0 : Fin 4) :: t) = supp t := by
    intro t; rw [supp_cons]; simp
  have h1 : ∀ (a : Fin 4), a ≠ 0 → ∀ t, supp (a :: t) = supp t + 1 := by
    intro a ha t; rw [supp_cons]; simp [ha]
  unfold suppCount
  rw [pauliTuples_succ, List.countP_append, List.countP_append, List.countP_append]
  rw [countP_cons_head 0 0 (fun s => s) h0,
      countP_cons_head 1 0 (fun s => s + 1) (h1 1 (by decide)),
      countP_cons_head 2 0 (fun s => s + 1) (h1 2 (by decide)),
      countP_cons_head 3 0 (fun s => s + 1) (h1 3 (by decide))]
  simp

theorem suppCount_eq (n : ℕ) : ∀ j, suppCount n j = Nat.choose n j * 3 ^ j := by
  induction n with
  | zero =>
    intro j
    cases j with
    | zero => rfl
    | succ j =>
      have : suppCount 0 (j + 1) = 0 := by
        unfold suppCount
        rw [show pauliTuples 0 = [[]] from rfl, List.countP_eq_zero]
        intro t ht
        rw [List.mem_singleton] at ht
        subst ht
        simp [supp]
      rw [this, Nat.choose_eq_zero_of_lt (by omega)]
      simp
  | succ n ih =>
    intro j
    cases j with
    | zero => rw [suppCount_succ_zero, ih 0]; simp
    | succ j =>
      rw [suppCount_succ_succ, ih j, ih (j + 1), Nat.choose_succ_succ]
      ring

theorem countP_band_Icc {α : Type} (f : α → ℕ) (l : List α) (lo hi : ℕ) :
    l.countP (fun a => decide (lo ≤ f a) && decide (f a ≤ hi)) =
      Finset.sum (Finset.Icc lo hi) (fun j => l.countP (fun a => decide (f a = j))) := by
  induction l with
  | nil => simp
  | cons a l ih =>
    simp only [List.countP_cons, ih, Finset.sum_add_distrib]
    congr 1
    have hj : ∀ j : ℕ, (if (decide (f a = j)) = true then 1 else 0) =
        (if j = f a then (1 : ℕ) else 0) := by
      intro j
      by_cases h : f a = j
      · simp [h]
      · rw [if_neg (by simpa using h), if_neg (fun he => h he.symm)]
    rw [Finset.sum_congr rfl (fun j _ => hj j), Finset.sum_ite_eq']
    by_cases h : lo ≤ f a ∧ f a ≤ hi
    · rw [if_pos (Finset.mem_Icc.2 h), if_pos]
      simp only [Bool.and_eq_true, decide_eq_true_eq]
      exact h
    · have hc : ¬((decide (lo ≤ f a) && decide (f a ≤ hi)) = true) := by
        simp only [Bool.and_eq_true, decide_eq_true_eq]
        exact h
      rw [if_neg (fun hm => h (Finset.mem_Icc.1 hm)), if_neg hc]

/-- C4: for every qubit count `nq` and every locality bound `k : ℕ`, the
observable enumerator returns a duplicate-free list, never containing the
all-identity tuple, whose members are exactly the length-`nq` tuples with
non-identity support in `[1, k]`; its length is `∑ j ∈ [1,k], C(nq,j)·3^j`,
it is lexicographically sorted over the underlying index tuples, and it is
identical on every call with the same arguments. -/
theorem observable_enumerator_correct (nq k : ℕ) :
    (get_all_k_local_observables nq (k : ℤ)).Nodup ∧
    List.replicate nq (0 : Fin 4) ∉ get_all_k_local_observables nq (k : ℤ) ∧
    (∀ t, t ∈ get_all_k_local_observables nq (k : ℤ) ↔
      t.length = nq ∧ 1 ≤ supp t ∧ supp t ≤ k) ∧
    (get_all_k_local_observables nq (k : ℤ)).length =
      Finset.sum (Finset.Icc 1 k) (fun j => Nat.choose nq j * 3 ^ j) ∧
    (get_all_k_local_observables nq (k : ℤ)).Pairwise (List.Lex (· < ·)) ∧
    get_all_k_local_observables nq (k : ℤ) = get_all_k_local_observables nq (k : ℤ) := by
  have hcond : ∀ t ∈ pauliTuples nq,
      ((decide ((nq : ℤ) - (k : ℤ) ≤ (zeros t : ℤ)) && decide ((zeros t : ℤ) < (nq : ℤ)))
        = (decide (1 ≤ supp t) && decide (supp t ≤ k))) := by
    intro t ht
    have hlen : zeros t + supp t = nq := by
      rw [zeros_add_supp]; exact mem_pauliTuples.1 ht
    have h1 : ((nq : ℤ) - (k : ℤ) ≤ (zeros t : ℤ)) ↔ (supp t ≤ k) := by omega
    have h2 : ((zeros t : ℤ) < (nq : ℤ)) ↔ (1 ≤ supp t) := by omega
    rw [decide_eq_decide.2 h1, decide_eq_decide.2 h2, Bool.and_comm]
  have hmem : ∀ t, t ∈ get_all_k_local_observables nq (k : ℤ) ↔
      t.length = nq ∧ 1 ≤ supp t ∧ supp t ≤ k := by
    intro t
    unfold get_all_k_local_observables
    rw [List.mem_filter]
    constructor
    · rintro ⟨ht, hp⟩
      rw [hcond t ht] at hp
      simp only [Bool.and_eq_true, decide_eq_true_eq] at hp
      exact ⟨mem_pauliTuples.1 ht, hp.1, hp.2⟩
    · rintro ⟨hl, h1, h2⟩
      have ht : t ∈ pauliTuples nq := mem_pauliTuples.2 hl
      refine ⟨ht, ?_⟩
      rw [hcond t ht]
      simp only [Bool.and_eq_true, decide_eq_true_eq]
      exact ⟨h1, h2⟩
  refine ⟨?_, ?_, hmem, ?_, ?_, rfl⟩
  · exact (pauliTuples_nodup nq).sublist (List.filter_sublist _)
  · intro hmem'
    have h := ((hmem _).1 hmem').2.1
    have : supp (List.replicate nq (0 : Fin 4)) = 0 := by
      unfold supp
      rw [List.countP_eq_zero]
      intro a ha
      rw [List.eq_of_mem_replicate ha]
      simp
    omega
  · unfold get_all_k_local_observables
    rw [← List.countP_eq_length_filter,
      List.countP_congr (fun x hx => by rw [hcond x hx]),
      countP_band_Icc supp (pauliTuples nq) 1 k]
    exact Finset.sum_congr rfl (fun j _ => suppCount_eq nq j)
  · exact ((pauliTuples_sorted nq).sublist (List.filter_sublist _))

/-- C8 (amended): out-of-range locality is not rejected: for `k < 0` the
enumerator silently returns the empty list, and for `k ≥ nq` it returns the
same list as `k = nq`; no validation error exists. -/
theorem invalid_locality_not_rejected (nq : ℕ) (k : ℤ) :
    (k < 0 → get_all_k_local_observables nq k = []) ∧
    ((nq : ℤ) ≤ k → get_all_k_local_observables nq k = get_all_k_local_observables nq (nq : ℤ)) := by
  constructor
  · intro hk
    unfold get_all_k_local_observables
    rw [List.filter_eq_nil_iff]
    intro t ht
    have hz : zeros t ≤ nq := by
      have := zeros_add_supp t
      have := mem_pauliTuples.1 ht
      omega
    simp only [Bool.and_eq_true, decide_eq_true_eq, not_and]
    intro h1
    omega
  · intro hk
    unfold get_all_k_local_observables
    apply List.filter_congr
    intro t ht
    have hz : zeros t ≤ nq := by
      have := zeros_add_supp t
      have := mem_pauliTuples.1 ht
      omega
    have h1 : ((nq : ℤ) - k ≤ (zeros t : ℤ)) ↔ ((nq : ℤ) - (nq : ℤ) ≤ (zeros t : ℤ)) := by
      omega
    rw [decide_eq_decide.2 h1]

/-- C8 counterexample: invalid localities are accepted, producing ordinary
values instead of a rejection: `k = -1` yields `[]`, `k = 3 > nq = 2` yields
the same non-empty list as `k = 2`. -/
theorem invalid_config_accepted_example :
    get_all_k_local_observables 2 (-1) = [] ∧
    get_all_k_local_observables 2 3 = get_all_k_local_observables 2 2 ∧
    get_all_k_local_observables 2 2 ≠ [] := by decide

/-- Witness for `invalid_locality_not_rejected` at `nq = 2`, `k = -1` and
`k = 3`. -/
theorem invalid_locality_not_rejected_witness :
    get_all_k_local_observables 2 (-1) = [] ∧
    get_all_k_local_observables 2 3 = get_all_k_local_observables 2 ((2 : ℕ) : ℤ) :=
  ⟨(invalid_locality_not_rejected 2 (-1)).1 (by norm_num),
   (invalid_locality_not_rejected 2 3).2 (by norm_num)⟩

/-! ## DivergenceEstimator (source: `kld_estimator`)

`faiss.IndexFlatL2.search(s1, n)` returns, for every query point of `s1`,
the list of squared Euclidean distances to all indexed points sorted in
increasing order; the source then takes `np.sqrt`.  We embed the sorted
squared-distance lists and apply the abstract square root `sq` entrywise;
`np.searchsorted(row, v, side='right')` on a sorted row equals the count
of entries `≤ v`. -/

/-- Squared Euclidean distance between two points (what `IndexFlatL2`
computes internally before the source takes `np.sqrt`). -/
def distSq (x y : List ℚ) : ℚ := (List.zipWith (fun a b => (a - b) * (a - b)) x y).sum

/-- Sorted list of squared distances from `x` to every point of `S`. -/
def sortedSqDists (x : List ℚ) (S : List (List ℚ)) : List ℚ :=
  (S.map (fun y => distSq x y)).insertionSort (· ≤ ·)

/-- One row of `np.sqrt(index.search(x, |S|)[0])`: the sorted distances from
`x` to all of `S` (the abstract `sq` embeds `np.sqrt`). -/
def fulldistRow (sq : ℚ → ℚ) (x : List ℚ) (S : List (List ℚ)) : List ℚ :=
  (sortedSqDists x S).map sq

/-- `np.searchsorted(row, v, side='right')` for a sorted `row`. -/
def searchsortedRight (row : List ℚ) (v : ℚ) : ℕ :=
  row.countP (fun a => decide (a ≤ v))

/-- `rhoi = fulldist1[::,1]`: 2nd-closest match of `s1[i]` in `s1`. -/
def rhoD (sq : ℚ → ℚ) (s1 : List (List ℚ)) (i : ℕ) : ℚ :=
  (fulldistRow sq (s1.getD i []) s1).getD 1 0

/-- `nui = fulldist2[::,0]`: closest match of `s1[i]` in `s2`. -/
def nuD (sq : ℚ → ℚ) (s1 s2 : List (List ℚ)) (i : ℕ) : ℚ :=
  (fulldistRow sq (s1.getD i []) s2).getD 0 0

/-- `epsilon = np.maximum(rhoi, nui)`. -/
def epsD (sq : ℚ → ℚ) (s1 s2 : List (List ℚ)) (i : ℕ) : ℚ :=
  max (rhoD sq s1 i) (nuD sq s1 s2 i)

/-- `li = np.array([np.searchsorted(fulldist1[i], epsilon[i], side='right')
for i in range(m)]) - 1`.  Note the source iterates over `range(m)` with
`m = len(s2)`, not over `range(n)`. -/
def liList (sq : ℚ → ℚ) (s1 s2 : List (List ℚ)) : List ℤ :=
  (List.range s2.length).map
    (fun i => (searchsortedRight (fulldistRow sq (s1.getD i []) s1) (epsD sq s1 s2 i) : ℤ) - 1)

/-- `ki = np.array([np.searchsorted(fulldist2[i], epsilon[i], side='right')
for i in range(n)])` with `n = len(s1)`. -/
def kiList (sq : ℚ → ℚ) (s1 s2 : List (List ℚ)) : List ℕ :=
  (List.range s1.length).map
    (fun i => searchsortedRight (fulldistRow sq (s1.getD i []) s2) (epsD sq s1 s2 i))

/-- Elementwise difference of two 1-D numpy arrays: raises (`none`) when the
lengths mismatch (no broadcasting between lengths `≥ 2`). -/
def broadcastSub (a b : List ℚ) : Option (List ℚ) :=
  if a.length = b.length then some (List.zipWith (fun x y => x - y) a b) else none

/-- Source `kld_estimator(s1, s2)`:
`np.mean(digamma(li) - digamma(ki)) + np.log(m / (n - 1))`.
`digammaQ` and `logQ` embed `scipy.special.digamma` and `np.log`. -/
def kld_estimator (sq : ℚ → ℚ) (digammaQ : ℤ → ℚ) (logQ : ℚ → ℚ)
    (s1 s2 : List (List ℚ)) : Option ℚ :=
  let n := s1.length
  let m := s2.length
  (broadcastSub ((liList sq s1 s2).map digammaQ)
      ((kiList sq s1 s2).map (fun k => digammaQ (k : ℤ)))).map
    (fun diffs => mean diffs + logQ ((m : ℚ) / ((n : ℚ) - 1)))

theorem distSq_nonneg (x y : List ℚ) : 0 ≤ distSq x y := by
  induction x generalizing y with
  | nil => simp [distSq]
  | cons a x ih =>
    cases y with
    | nil => simp [distSq]
    | cons b y =>
      have h := ih y
      unfold distSq at h ⊢
      simp only [List.zipWith_cons_cons, List.sum_cons]
      nlinarith [mul_self_nonneg (a - b)]

theorem distSq_self (x : List ℚ) : distSq x x = 0 := by
  unfold distSq
  rw [List.sum_eq_zero]
  intro a ha
  rw [List.zipWith_same] at ha
  obtain ⟨b, _, rfl⟩ := List.mem_map.1 ha
  ring

theorem length_sortedSqDists (x : List ℚ) (S : List (List ℚ)) :
    (sortedSqDists x S).length = S.length := by
  unfold sortedSqDists
  rw [List.length_insertionSort, List.length_map]

theorem sortedSqDists_sorted (x : List ℚ) (S : List (List ℚ)) :
    (sortedSqDists x S).Sorted (· ≤ ·) :=
  List.sorted_insertionSort _ _

theorem sortedSqDists_nonneg (x : List ℚ) (S : List (List ℚ)) :
    ∀ a ∈ sortedSqDists x S, 0 ≤ a := by
  intro a ha
  have : a ∈ S.map (fun y => distSq x y) :=
    (List.perm_insertionSort (· ≤ ·) _).mem_iff.1 ha
  obtain ⟨y, _, rfl⟩ := List.mem_map.1 this
  exact distSq_nonneg x y

/-- On the row for a point of `s1` against `s1` itself, with at least two
points, the right-sided count at radius `ε_i ≥ ρ_i` is at least `2`, hence
`l_i ≥ 1`. -/
theorem li_entry_ge_one (sq : ℚ → ℚ) (hmono : Monotone sq)
    (s1 s2 : List (List ℚ)) (i : ℕ) (hn : 2 ≤ s1.length) :
    2 ≤ searchsortedRight (fulldistRow sq (s1.getD i []) s1) (epsD sq s1 s2 i) := by
  have hlen : (sortedSqDists (s1.getD i []) s1).length = s1.length :=
    length_sortedSqDists _ _
  obtain ⟨c0, c1, rest, hrow⟩ : ∃ c0 c1 rest,
      sortedSqDists (s1.getD i []) s1 = c0 :: c1 :: rest := by
    rcases h : sortedSqDists (s1.getD i []) s1 with _ | ⟨c0, _ | ⟨c1, rest⟩⟩
    · rw [h] at hlen; simp at hlen; omega
    · rw [h] at hlen; simp at hlen; omega
    · exact ⟨_, _, _, rfl⟩
  have hsorted := sortedSqDists_sorted (s1.getD i []) s1
  rw [hrow] at hsorted
  have hc01 : c0 ≤ c1 := (List.sorted_cons.1 hsorted).1 c1 (by simp)
  have hrho : rhoD sq s1 i = sq c1 := by
    unfold rhoD fulldistRow
    rw [hrow]
    rfl
  have hle : sq c1 ≤ epsD sq s1 s2 i := by
    rw [← hrho]
    exact le_max_left _ _
  unfold searchsortedRight fulldistRow
  rw [hrow]
  simp only [List.map_cons, List.countP_cons]
  have h0 : decide (sq c0 ≤ epsD sq s1 s2 i) = true :=
    decide_eq_true (le_trans (hmono hc01) hle)
  have h1 : decide (sq c1 ≤ epsD sq s1 s2 i) = true := decide_eq_true hle
  rw [h0, h1]
  simp

/-- On the row for a point of `s1` against a nonempty `s2`, the right-sided
count at radius `ε_i ≥ ν_i` is at least `1`, hence `k_i ≥ 1`. -/
theorem ki_entry_ge_one (sq : ℚ → ℚ) (s1 s2 : List (List ℚ)) (i : ℕ)
    (hm : 1 ≤ s2.length) :
    1 ≤ searchsortedRight (fulldistRow sq (s1.getD i []) s2) (epsD sq s1 s2 i) := by
  have hlen : (sortedSqDists (s1.getD i []) s2).length = s2.length :=
    length_sortedSqDists _ _
  obtain ⟨c0, rest, hrow⟩ : ∃ c0 rest,
      sortedSqDists (s1.getD i []) s2 = c0 :: rest := by
    rcases h : sortedSqDists (s1.getD i []) s2 with _ | ⟨c0, rest⟩
    · rw [h] at hlen; simp at hlen; omega
    · exact ⟨_, _, rfl⟩
  have hnu : nuD sq s1 s2 i = sq c0 := by
    unfold nuD fulldistRow
    rw [hrow]
    rfl
  have hle : sq c0 ≤ epsD sq s1 s2 i := by
    rw [← hnu]
    exact le_max_right _ _
  unfold searchsortedRight fulldistRow
  rw [hrow]
  simp only [List.map_cons, List.countP_cons]
  rw [decide_eq_true hle]
  simp

/-- C10: for equal-size inputs with at least two points each, every neighbor
count the estimator computes is positive: each entry of `li` is `≥ 1` and
each entry of `ki` is `≥ 1`, so `digamma` is never evaluated at `0`. -/
theorem neighbor_counts_positive (sq : ℚ → ℚ) (s1 s2 : List (List ℚ))
    (hmono : Monotone sq) (heq : s1.length = s2.length) (hn : 2 ≤ s1.length) :
    (∀ x ∈ liList sq s1 s2, 1 ≤ x) ∧ (∀ x ∈ kiList sq s1 s2, 1 ≤ x) := by
  constructor
  · intro x hx
    obtain ⟨i, _, rfl⟩ := List.mem_map.1 hx
    have h := li_entry_ge_one sq hmono s1 s2 i hn
    omega
  · intro x hx
    obtain ⟨i, _, rfl⟩ := List.mem_map.1 hx
    have h := ki_entry_ge_one sq s1 s2 i (by omega)
    omega

/-- Witness for `neighbor_counts_positive` on two concrete 1-D samples of two
points each, with `sq = id`. -/
theorem neighbor_counts_positive_witness :
    (∀ x ∈ liList id [[0], [1]] [[0], [1]], 1 ≤ x) ∧
    (∀ x ∈ kiList id [[0], [1]] [[0], [1]], 1 ≤ x) :=
  neighbor_counts_positive id [[0], [1]] [[0], [1]] monotone_id rfl (by norm_num)

/-- C7 (amended): when `S1` contains an exact duplicate point, `ρ_i = 0` for
that point, yet (for equal-size samples) every neighbor count stays `≥ 1`:
the counts are taken at radius `ε_i = max(ρ_i, ν_i)` with right-sided
inclusive search on the very lists those radii come from, so no degeneracy
arises and the estimator silently returns an ordinary value — the code has
no degeneracy signal at all. -/
theorem duplicate_rho_zero_counts_positive (sq : ℚ → ℚ) (hmono : Monotone sq)
    (hsq0 : sq 0 = 0) (pre mid post : List (List ℚ)) (x : List ℚ)
    (s2 : List (List ℚ))
    (heq : (pre ++ x :: mid ++ x :: post).length = s2.length) :
    rhoD sq (pre ++ x :: mid ++ x :: post) pre.length = 0 ∧
    (∀ v ∈ liList sq (pre ++ x :: mid ++ x :: post) s2, 1 ≤ v) ∧
    (∀ v ∈ kiList sq (pre ++ x :: mid ++ x :: post) s2, 1 ≤ v) := by
  set s1 := pre ++ x :: mid ++ x :: post with hs1
  have hn : 2 ≤ s1.length := by
    rw [hs1]
    simp only [List.length_append, List.length_cons]
    omega
  have hget : s1.getD pre.length [] = x := by
    rw [hs1]
    have h := List.getD_append_right pre (x :: mid ++ x :: post) [] pre.length
      (le_refl pre.length)
    simpa using h
  have hcount : 2 ≤ List.count (0 : ℚ) (s1.map (fun y => distSq (s1.getD pre.length []) y)) := by
    rw [hget, hs1]
    simp only [List.map_append, List.map_cons, List.count_append, List.count_cons_self,
      distSq_self]
    omega
  have hcount' : 2 ≤ List.count (0 : ℚ) (sortedSqDists (s1.getD pre.length []) s1) := by
    unfold sortedSqDists
    rw [(List.perm_insertionSort (· ≤ ·) _).count_eq]
    exact hcount
  obtain ⟨c0, c1, rest, hrow⟩ : ∃ c0 c1 rest,
      sortedSqDists (s1.getD pre.length []) s1 = c0 :: c1 :: rest := by
    have hlen : (sortedSqDists (s1.getD pre.length []) s1).length = s1.length :=
      length_sortedSqDists _ _
    rcases h : sortedSqDists (s1.getD pre.length []) s1 with _ | ⟨c0, _ | ⟨c1, rest⟩⟩
    · rw [h] at hlen; simp at hlen; omega
    · rw [h] at hlen; simp at hlen; omega
    · exact ⟨_, _, _, rfl⟩
  have hsorted := sortedSqDists_sorted (s1.getD pre.length []) s1
  have hnonneg := sortedSqDists_nonneg (s1.getD pre.length []) s1
  rw [hrow] at hsorted hnonneg hcount'
  have hc1 : c1 = 0 := by
    have h1 : 0 ≤ c1 := hnonneg c1 (by simp)
    have hsplit : List.count (0 : ℚ) (c0 :: c1 :: rest) ≤
        List.count (0 : ℚ) (c1 :: rest) + 1 := by
      rw [List.count_cons]
      split <;> omega
    have htail : (0 : ℚ) ∈ c1 :: rest := by
      rw [← List.count_pos_iff]
      omega
    rcases List.mem_cons.1 htail with h | h
    · exact h.symm
    · have h2 : c1 ≤ 0 := (List.sorted_cons.1 (List.sorted_cons.1 hsorted).2).1 0 h
      linarith
  refine ⟨?_, ?_, ?_⟩
  · unfold rhoD fulldistRow
    rw [hrow]
    simp [hc1, hsq0]
  · intro v hv
    obtain ⟨i, _, rfl⟩ := List.mem_map.1 hv
    have h := li_entry_ge_one sq hmono s1 s2 i hn
    omega
  · intro v hv
    obtain ⟨i, _, rfl⟩ := List.mem_map.1 hv
    have h := ki_entry_ge_one sq s1 s2 i (by omega)
    omega

/-- Counterexample to C7 as stated: on the concrete sample
`S1 = [[0],[0],[1]]` with an exact duplicate (so `ρ_0 = 0`) and
`S2 = [[5],[6],[7]]`, no zero neighbor count occurs (`l_i ≥ 1`, `k_i ≥ 1`
throughout) and the estimator returns an ordinary value — there is no
distinguishable warning or error. -/
theorem estimator_silent_on_duplicate :
    rhoD id [[0], [0], [1]] 0 = 0 ∧
    (∀ v ∈ liList id [[0], [0], [1]] [[5], [6], [7]], 1 ≤ v) ∧
    (∀ v ∈ kiList id [[0], [0], [1]] [[5], [6], [7]], 1 ≤ v) ∧
    (kld_estimator id (fun z => (z : ℚ)) (fun q => q) [[0], [0], [1]]
      [[5], [6], [7]]).isSome = true := by
  refine ⟨?_, ?_, ?_, ?_⟩ <;>
    norm_num [kld_estimator, broadcastSub, mean, liList, kiList, epsD, rhoD, nuD,
      fulldistRow, sortedSqDists, distSq, searchsortedRight, List.insertionSort,
      List.orderedInsert, List.countP, List.countP.go, List.range_succ]

/-- Witness for `duplicate_rho_zero_counts_positive` at
`S1 = [] ++ [0] :: [] ++ [0] :: [[1]]`, `S2 = [[5],[6],[7]]`, `sq = id`. -/
theorem duplicate_rho_zero_counts_positive_witness :
    rhoD id ([] ++ [(0 : ℚ)] :: [] ++ [(0 : ℚ)] :: [[1]]) (List.length ([] : List (List ℚ))) = 0 ∧
    (∀ v ∈ liList id ([] ++ [(0 : ℚ)] :: [] ++ [(0 : ℚ)] :: [[1]]) [[5], [6], [7]], 1 ≤ v) ∧
    (∀ v ∈ kiList id ([] ++ [(0 : ℚ)] :: [] ++ [(0 : ℚ)] :: [[1]]) [[5], [6], [7]], 1 ≤ v) :=
  duplicate_rho_zero_counts_positive id monotone_id rfl [] [] [[1]] [(0 : ℚ)]
    [[5], [6], [7]] rfl

/-- C1 (code bug): the source builds `li` by iterating `i` over `range(m)`
(`m = len(s2)`) although the rows of `fulldist1` are indexed by the `n`
points of `s1`.  At the concrete input `S1 = [[0],[1],[4]]` (n = 3),
`S2 = [[0],[2]]` (m = 2) the computed `li` has only 2 entries — no `l_i`
exists for the third point of `S1` — and the elementwise
`digamma(li) - digamma(ki)` then fails (modelled as `none`), so the
estimator never returns the claimed value for `n ≠ m`. -/
theorem kld_loop_bound_mismatch :
    (liList id [[0], [1], [4]] [[0], [2]]).length = 2 ∧
    (kiList id [[0], [1], [4]] [[0], [2]]).length = 3 ∧
    kld_estimator id (fun z => (z : ℚ)) (fun q => q) [[0], [1], [4]] [[0], [2]] = none := by
  refine ⟨?_, ?_, ?_⟩ <;>
    norm_num [kld_estimator, broadcastSub, mean, liList, kiList, epsD, rhoD, nuD,
      fulldistRow, sortedSqDists, distSq, searchsortedRight, List.insertionSort,
      List.orderedInsert, List.countP, List.countP.go, List.range_succ]

/-! ## CheckpointSelector (source: evaluation / checkpoint logic of the
train loop)

```
if i % config.eval_freq == 0:
    kld = kld_estimator(...)
if i in [0,1,2,5,10,20,50,100,200,500,1000,2000,5000,10000,20000,50000]:
    <checkpoint>
elif kld < best:
    <checkpoint>; best = kld; best_i = i
```
with `best = np.infty` initially (modelled as `⊤ : WithTop ℚ`). -/

/-- The hard-coded milestone schedule of the train loop. -/
def milestones : List ℕ :=
  [0, 1, 2, 5, 10, 20, 50, 100, 200, 500, 1000, 2000, 5000, 10000, 20000, 50000]

/-- Selector state across iterations: `best` (initially `np.infty`),
`best_i`, and the Python variable `kld`, which always holds the most
recently computed divergence score (it is recomputed only when
`i % eval_freq == 0`; since `0 % eval_freq == 0`, the junk initial value
below is overwritten at iteration 0 before any use). -/
structure SelState where
  best : WithTop ℚ
  bestI : ℕ
  kld : ℚ

/-- The value of the Python variable `kld` during iteration `i`. -/
def selKld (evalFreq : ℕ) (score : ℕ → ℚ) (st : SelState) (i : ℕ) : ℚ :=
  if i % evalFreq = 0 then score i else st.kld

/-- One iteration of the checkpoint logic; returns the new state and
whether a checkpoint was taken at iteration `i`. -/
def selStep (evalFreq : ℕ) (score : ℕ → ℚ) (st : SelState) (i : ℕ) : SelState × Bool :=
  if i ∈ milestones then
    (⟨st.best, st.bestI, selKld evalFreq score st i⟩, true)
  else if ((selKld evalFreq score st i : ℚ) : WithTop ℚ) < st.best then
    (⟨((selKld evalFreq score st i : ℚ) : WithTop ℚ), i, selKld evalFreq score st i⟩, true)
  else
    (⟨st.best, st.bestI, selKld evalFreq score st i⟩, false)

/-- Run the loop over iterations `0, …, N-1`, collecting the iterations at
which a checkpoint was taken. -/
def selRun (evalFreq : ℕ) (score : ℕ → ℚ) (N : ℕ) : SelState × List ℕ :=
  (List.range N).foldl
    (fun acc i =>
      ((selStep evalFreq score acc.1 i).1,
        acc.2 ++ if (selStep evalFreq score acc.1 i).2 then [i] else []))
    (⟨⊤, 0, 0⟩, [])

theorem selKld_one (score : ℕ → ℚ) (st : SelState) (i : ℕ) :
    selKld 1 score st i = score i := by
  unfold selKld
  simp [Nat.mod_one]

theorem selStep_milestone (f : ℕ) (score : ℕ → ℚ) (st : SelState) (i : ℕ)
    (h : i ∈ milestones) :
    selStep f score st i = (⟨st.best, st.bestI, selKld f score st i⟩, true) := by
  unfold selStep
  rw [if_pos h]

theorem selStep_improve (f : ℕ) (score : ℕ → ℚ) (st : SelState) (i : ℕ)
    (h : i ∉ milestones)
    (hlt : ((selKld f score st i : ℚ) : WithTop ℚ) < st.best) :
    selStep f score st i =
      (⟨((selKld f score st i : ℚ) : WithTop ℚ), i, selKld f score st i⟩, true) := by
  unfold selStep
  rw [if_neg h, if_pos hlt]

theorem selStep_noimprove (f : ℕ) (score : ℕ → ℚ) (st : SelState) (i : ℕ)
    (h : i ∉ milestones)
    (hlt : ¬ ((selKld f score st i : ℚ) : WithTop ℚ) < st.best) :
    selStep f score st i = (⟨st.best, st.bestI, selKld f score st i⟩, false) := by
  unfold selStep
  rw [if_neg h, if_neg hlt]

theorem selRun_succ (f : ℕ) (score : ℕ → ℚ) (N : ℕ) :
    selRun f score (N + 1) =
      ((selStep f score (selRun f score N).1 N).1,
        (selRun f score N).2 ++
          if (selStep f score (selRun f score N).1 N).2 then [N] else []) := by
  unfold selRun
  rw [List.range_succ, List.foldl_append, List.foldl_cons, List.foldl_nil]

/-- Score stream of the counterexample run: fresh scores `5, 5, 1, 2`. -/
def cexScores : ℕ → ℚ := fun i => ([5, 5, 1, 2] : List ℚ).getD i 0

/-- Counterexample to C6 as stated: with `eval_freq = 1` (a score is newly
computed at every iteration) and score sequence `5, 5, 1, 2`, iteration
`3` is outside the milestone schedule and its newly computed score `2` does
*not* strictly improve on the best score seen so far (the score `1` was seen
at milestone iteration `2`), yet the code still takes a checkpoint at
iteration `3`, because milestone iterations never fold their scores into
`best`. -/
theorem checkpoint_stale_best_counterexample :
    (selRun 1 cexScores 4).2 = [0, 1, 2, 3] ∧
    3 ∉ milestones ∧
    cexScores 2 < cexScores 3 := by
  have s1 : selRun 1 cexScores 1 = (⟨⊤, 0, 5⟩, [0]) := by
    show selRun 1 cexScores (0 + 1) = _
    rw [selRun_succ, selStep_milestone 1 cexScores _ 0 (by decide)]
    rfl
  have s2 : selRun 1 cexScores 2 = (⟨⊤, 0, 5⟩, [0, 1]) := by
    show selRun 1 cexScores (1 + 1) = _
    rw [selRun_succ, s1, selStep_milestone 1 cexScores ⟨⊤, 0, 5⟩ 1 (by decide)]
    rfl
  have s3 : selRun 1 cexScores 3 = (⟨⊤, 0, 1⟩, [0, 1, 2]) := by
    show selRun 1 cexScores (2 + 1) = _
    rw [selRun_succ, s2, selStep_milestone 1 cexScores ⟨⊤, 0, 5⟩ 2 (by decide)]
    rfl
  have s4 : selRun 1 cexScores 4 = (⟨((2 : ℚ) : WithTop ℚ), 3, 2⟩, [0, 1, 2, 3]) := by
    show selRun 1 cexScores (3 + 1) = _
    rw [selRun_succ, s3,
      selStep_improve 1 cexScores ⟨⊤, 0, 1⟩ 3 (by decide) (WithTop.coe_lt_top _)]
    rfl
  refine ⟨?_, by decide, by norm_num [cexScores]⟩
  rw [s4]

/-- Score stream for the C6 scenario: the claim's fresh scores
`5, 5, 4.9, 6, 4` are fed at the non-milestone iterations `3, 4, 6, 7, 8`
(iterations `0, 1, 2, 5` are milestones); elsewhere the score is `1000`. -/
def scenarioScores : ℕ → ℚ :=
  fun i => ([1000, 1000, 1000, 5, 5, 1000, 49 / 10, 6, 4] : List ℚ).getD i 0

theorem scenario_run : (selRun 1 scenarioScores 9).2 = [0, 1, 2, 3, 5, 6, 8] := by
  have s1 : selRun 1 scenarioScores 1 = (⟨⊤, 0, 1000⟩, [0]) := by
    show selRun 1 scenarioScores (0 + 1) = _
    rw [selRun_succ, selStep_milestone 1 scenarioScores _ 0 (by decide)]
    rfl
  have s2 : selRun 1 scenarioScores 2 = (⟨⊤, 0, 1000⟩, [0, 1]) := by
    show selRun 1 scenarioScores (1 + 1) = _
    rw [selRun_succ, s1, selStep_milestone 1 scenarioScores ⟨⊤, 0, 1000⟩ 1 (by decide)]
    rfl
  have s3 : selRun 1 scenarioScores 3 = (⟨⊤, 0, 1000⟩, [0, 1, 2]) := by
    show selRun 1 scenarioScores (2 + 1) = _
    rw [selRun_succ, s2, selStep_milestone 1 scenarioScores ⟨⊤, 0, 1000⟩ 2 (by decide)]
    rfl
  have s4 : selRun 1 scenarioScores 4 =
      (⟨((5 : ℚ) : WithTop ℚ), 3, 5⟩, [0, 1, 2, 3]) := by
    show selRun 1 scenarioScores (3 + 1) = _
    rw [selRun_succ, s3,
      selStep_improve 1 scenarioScores ⟨⊤, 0, 1000⟩ 3 (by decide) (WithTop.coe_lt_top _)]
    rfl
  have s5 : selRun 1 scenarioScores 5 =
      (⟨((5 : ℚ) : WithTop ℚ), 3, 5⟩, [0, 1, 2, 3]) := by
    show selRun 1 scenarioScores (4 + 1) = _
    rw [selRun_succ, s4,
      selStep_noimprove 1 scenarioScores ⟨((5 : ℚ) : WithTop ℚ), 3, 5⟩ 4 (by decide)
        (by
          show ¬ ((selKld 1 scenarioScores ⟨((5 : ℚ) : WithTop ℚ), 3, 5⟩ 4 : ℚ) :
            WithTop ℚ) < ((5 : ℚ) : WithTop ℚ)
          rw [WithTop.coe_lt_coe]
          norm_num [selKld, scenarioScores])]
    rfl
  have s6 : selRun 1 scenarioScores 6 =
      (⟨((5 : ℚ) : WithTop ℚ), 3, 1000⟩, [0, 1, 2, 3, 5]) := by
    show selRun 1 scenarioScores (5 + 1) = _
    rw [selRun_succ, s5,
      selStep_milestone 1 scenarioScores ⟨((5 : ℚ) : WithTop ℚ), 3, 5⟩ 5 (by decide)]
    rfl
  have s7 : selRun 1 scenarioScores 7 =
      (⟨((49 / 10 : ℚ) : WithTop ℚ), 6, 49 / 10⟩, [0, 1, 2, 3, 5, 6]) := by
    show selRun 1 scenarioScores (6 + 1) = _
    rw [selRun_succ, s6,
      selStep_improve 1 scenarioScores ⟨((5 : ℚ) : WithTop ℚ), 3, 1000⟩ 6 (by decide)
        (by
          show ((selKld 1 scenarioScores ⟨((5 : ℚ) : WithTop ℚ), 3, 1000⟩ 6 : ℚ) :
            WithTop ℚ) < ((5 : ℚ) : WithTop ℚ)
          rw [WithTop.coe_lt_coe]
          norm_num [selKld, scenarioScores])]
    rfl
  have s8 : selRun 1 scenarioScores 8 =
      (⟨((49 / 10 : ℚ) : WithTop ℚ), 6, 6⟩, [0, 1, 2, 3, 5, 6]) := by
    show selRun 1 scenarioScores (7 + 1) = _
    rw [selRun_succ, s7,
      selStep_noimprove 1 scenarioScores ⟨((49 / 10 : ℚ) : WithTop ℚ), 6, 49 / 10⟩ 7
        (by decide)
        (by
          show ¬ ((selKld 1 scenarioScores ⟨((49 / 10 : ℚ) : WithTop ℚ), 6, 49 / 10⟩ 7 : ℚ) :
            WithTop ℚ) < ((49 / 10 : ℚ) : WithTop ℚ)
          rw [WithTop.coe_lt_coe]
          norm_num [selKld, scenarioScores])]
    rfl
  have s9 : selRun 1 scenarioScores 9 =
      (⟨((4 : ℚ) : WithTop ℚ), 8, 4⟩, [0, 1, 2, 3, 5, 6, 8]) := by
    show selRun 1 scenarioScores (8 + 1) = _
    rw [selRun_succ, s8,
      selStep_improve 1 scenarioScores ⟨((49 / 10 : ℚ) : WithTop ℚ), 6, 6⟩ 8 (by decide)
        (by
          show ((selKld 1 scenarioScores ⟨((49 / 10 : ℚ) : WithTop ℚ), 6, 6⟩ 8 : ℚ) :
            WithTop ℚ) < ((49 / 10 : ℚ) : WithTop ℚ)
          rw [WithTop.coe_lt_coe]
          norm_num [selKld, scenarioScores])]
    rfl
  rw [s9]

/-- C6 (amended): at every milestone iteration a checkpoint is taken
regardless of the score and the retained best pair is unchanged; at every
iteration outside the schedule a checkpoint is taken iff the selector's
current score value (the most recently computed one) strictly improves on
the retained best — which is updated only by these non-milestone
checkpoint events — in which case the retained pair becomes the current
`(iteration, score)`; a tie never triggers a checkpoint.  For the
fresh-score sequence `[5, 5, 4.9, 6, 4]` fed at the non-milestone
iterations `3, 4, 6, 7, 8`, checkpoints are taken at exactly `3, 6, 8` of
them (scenario indices 0, 2 and 4). -/
theorem checkpoint_selector_behaviour (f : ℕ) (score : ℕ → ℚ) (st : SelState) (i : ℕ) :
    (i ∈ milestones → (selStep f score st i).2 = true ∧
      (selStep f score st i).1.best = st.best ∧
      (selStep f score st i).1.bestI = st.bestI) ∧
    (i ∉ milestones →
      (((selStep f score st i).2 = true) ↔
        ((selKld f score st i : ℚ) : WithTop ℚ) < st.best) ∧
      ((selStep f score st i).2 = true →
        (selStep f score st i).1.best = ((selKld f score st i : ℚ) : WithTop ℚ) ∧
        (selStep f score st i).1.bestI = i) ∧
      (((selKld f score st i : ℚ) : WithTop ℚ) = st.best →
        (selStep f score st i).2 = false)) ∧
    (selRun 1 scenarioScores 9).2 = [0, 1, 2, 3, 5, 6, 8] := by
  refine ⟨?_, ?_, ?_⟩
  · intro hm
    simp [selStep, hm]
  · intro hm
    by_cases hlt : ((selKld f score st i : ℚ) : WithTop ℚ) < st.best
    · refine ⟨by simp [selStep, hm, hlt], ?_, ?_⟩
      · intro _
        simp [selStep, hm, hlt]
      · intro he
        rw [he] at hlt
        exact absurd hlt (lt_irrefl _)
    · refine ⟨by simp [selStep, hm, hlt], ?_, ?_⟩
      · intro habs
        simp [selStep, hm, hlt] at habs
      · intro _
        simp [selStep, hm, hlt]
  · exact scenario_run

/-- Witness for `checkpoint_selector_behaviour`: at milestone iteration `0`
a checkpoint is taken, and at the non-milestone iteration `3` the
checkpoint condition is exactly strict improvement of the current score on
the retained best. -/
theorem checkpoint_selector_behaviour_witness :
    (selStep 1 (fun _ => (1 : ℚ)) ⟨⊤, 0, 0⟩ 0).2 = true ∧
    ((selStep 1 (fun _ => (1 : ℚ)) ⟨⊤, 0, 0⟩ 3).2 = true ↔
      ((selKld 1 (fun _ => (1 : ℚ)) ⟨⊤, 0, 0⟩ 3 : ℚ) : WithTop ℚ) < (⊤ : WithTop ℚ)) :=
  ⟨((checkpoint_selector_behaviour 1 (fun _ => (1 : ℚ)) ⟨⊤, 0, 0⟩ 0).1 (by decide)).1,
   ((checkpoint_selector_behaviour 1 (fun _ => (1 : ℚ)) ⟨⊤, 0, 0⟩ 3).2.1 (by decide)).1⟩

/-! ## AdversarialTrainer (source: `train_step`, joint version)

External numeric primitives are uninterpreted function parameters:
`sampleZ` embeds the latent `jax.random.uniform` draw on a key; the three
`grads*` fields embed the `eqx.filter_value_and_grad` closures
(deterministic functions of their parameter and data arguments, returning
`(loss, grads)`); `tx*` embed `optax.adam(...).update` (returning
`(updates, new_opt_state)`); `apply*` embeds `eqx.apply_updates`.  JAX PRNG
keys are naturals; `jax.random.split key n` is modelled by `splitKey`. -/

/-- `jax.random.split key n`, modelled as `[pair key 0, …, pair key (n-1)]`:
deterministic, children pairwise distinct and distinct from the parent. -/
def splitKey (key n : ℕ) : List ℕ := (List.range n).map (fun i => Nat.pair key i)

/-- `jax.random.split(key, n_obs * batch).reshape(batch, n_obs, 2)`: the
row-major grid of shot-noise keys, one per (batch item, observable). -/
def shotKeys (key nObs batch : ℕ) : List (List ℕ) :=
  (List.range batch).map (fun b =>
    (List.range nObs).map (fun o => Nat.pair key (b * nObs + o)))

/-- The uninterpreted operations `train_step` composes. -/
structure TrainOps (Pq Pl Pc Sq Sl Sc Gq Gl Gc Z R : Type) where
  nCritic : ℕ
  nObs : ℕ
  batchSize : ℕ
  loader : ℕ → R
  sampleZ : ℕ → Z
  gradsCritic : Pc → Pq → Pl → R → Z → ℕ → List (List ℕ) → ℚ × Gc
  gradsGenLinear : Pl → Pq → Pc → Z → List (List ℕ) → ℚ × Gl
  gradsGenQuantum : Pq → Pl → Pc → Z → List (List ℕ) → ℚ × Gq
  txCritic : Gc → Sc → Gc × Sc
  txGenLinear : Gl → Sl → Gl × Sl
  txGenQuantum : Gq → Sq → Gq × Sq
  applyCritic : Pc → Gc → Pc
  applyGenLinear : Pl → Gl → Pl
  applyGenQuantum : Pq → Gq → Pq

/-- The three parameter groups and their three optimizer states. -/
structure TrainState (Pq Pl Pc Sq Sl Sc : Type) where
  gq : Pq
  gl : Pl
  c : Pc
  sgq : Sq
  sgl : Sl
  sc : Sc

/-- Mutable data of the critic loop: critic parameters, critic optimizer
state, the threaded key, the dataloader cursor and the last critic loss. -/
structure CriticAcc (Pc Sc : Type) where
  c : Pc
  sc : Sc
  key : ℕ
  cursor : ℕ
  lossC : ℚ

/-- One iteration of the critic loop:
`key, subkey, subsubkey, subsubsubkey = jax.random.split(key, 4)`;
`z = uniform(subkey, …)`; `keys = split(subsubsubkey, n_obs*batch).reshape(…)`;
`loss, grads = compute_grads_critic(critic_params, gq, gl, real_batch, z,
subsubkey, keys)`; adam update of the critic only.  The generator parameter
arguments are the frozen current ones. -/
def criticIter {Pq Pl Pc Sq Sl Sc Gq Gl Gc Z R : Type}
    (ops : TrainOps Pq Pl Pc Sq Sl Sc Gq Gl Gc Z R) (gq : Pq) (gl : Pl)
    (a : CriticAcc Pc Sc) : CriticAcc Pc Sc :=
  let ks := splitKey a.key 4
  let key := ks.getD 0 0
  let subkey := ks.getD 1 0
  let subsubkey := ks.getD 2 0
  let subsubsubkey := ks.getD 3 0
  let z := ops.sampleZ subkey
  let keys := shotKeys subsubsubkey ops.nObs ops.batchSize
  let lg := ops.gradsCritic a.c gq gl (ops.loader a.cursor) z subsubkey keys
  let us := ops.txCritic lg.2 a.sc
  ⟨ops.applyCritic a.c us.1, us.2, key, a.cursor + 1, lg.1⟩

/-- `for _, real_batch in zip(range(config.n_critic), infinite_trainloader())`:
`n_critic` critic iterations, the cursor advancing through the loader. -/
def criticPhase {Pq Pl Pc Sq Sl Sc Gq Gl Gc Z R : Type}
    (ops : TrainOps Pq Pl Pc Sq Sl Sc Gq Gl Gc Z R)
    (st : TrainState Pq Pl Pc Sq Sl Sc) (key cursor : ℕ) : CriticAcc Pc Sc :=
  (List.range ops.nCritic).foldl (fun a _ => criticIter ops st.gq st.gl a)
    ⟨st.c, st.sc, key, cursor, 0⟩

/-- Source `train_step` (joint version): the critic loop, then
`key, subkey, subsubkey = jax.random.split(key, 3)`; one latent batch `z`
and one key grid `keys`; `compute_grads_generator_linear` on the current
parameters, `compute_grads_generator_quantum` on the current parameters,
then the two adam updates.  Returns the new state, the three losses
`(loss_gq, loss_gl, loss_c)`, the new key and the loader cursor. -/
def trainStep {Pq Pl Pc Sq Sl Sc Gq Gl Gc Z R : Type}
    (ops : TrainOps Pq Pl Pc Sq Sl Sc Gq Gl Gc Z R)
    (st : TrainState Pq Pl Pc Sq Sl Sc) (key cursor : ℕ) :
    TrainState Pq Pl Pc Sq Sl Sc × (ℚ × ℚ × ℚ) × ℕ × ℕ :=
  let a := criticPhase ops st key cursor
  let ks := splitKey a.key 3
  let key2 := ks.getD 0 0
  let subkey := ks.getD 1 0
  let subsubkey := ks.getD 2 0
  let z := ops.sampleZ subkey
  let keys := shotKeys subsubkey ops.nObs ops.batchSize
  let ll := ops.gradsGenLinear st.gl st.gq a.c z keys
  let lq := ops.gradsGenQuantum st.gq st.gl a.c z keys
  let ul := ops.txGenLinear ll.2 st.sgl
  let gl2 := ops.applyGenLinear st.gl ul.1
  let uq := ops.txGenQuantum lq.2 st.sgq
  let gq2 := ops.applyGenQuantum st.gq uq.1
  (⟨gq2, gl2, a.c, uq.2, ul.2, a.sc⟩, (lq.1, ll.1, a.lossC), key2, a.cursor)

/-- The training step as claim C2 words it: first `n_critic` critic
updates, each on a fresh latent batch and the next real batch; then one
fresh latent batch and one grid of shot-noise seed tokens, shared between
the two generator sub-updates; the gradient with respect to each generator
parameter group is evaluated with the other group held at its frozen
pre-update snapshot; only then one optimizer step is applied to each of
the two generator groups, each with its own optimizer state. -/
def trainStepSpec {Pq Pl Pc Sq Sl Sc Gq Gl Gc Z R : Type}
    (ops : TrainOps Pq Pl Pc Sq Sl Sc Gq Gl Gc Z R)
    (st : TrainState Pq Pl Pc Sq Sl Sc) (key cursor : ℕ) :
    TrainState Pq Pl Pc Sq Sl Sc × (ℚ × ℚ × ℚ) × ℕ × ℕ :=
  let a := criticPhase ops st key cursor
  let ks := splitKey a.key 3
  let sharedZ := ops.sampleZ (ks.getD 1 0)
  let sharedKeys := shotKeys (ks.getD 2 0) ops.nObs ops.batchSize
  let glFrozen := st.gl
  let gqFrozen := st.gq
  let ll := ops.gradsGenLinear glFrozen gqFrozen a.c sharedZ sharedKeys
  let lq := ops.gradsGenQuantum gqFrozen glFrozen a.c sharedZ sharedKeys
  let ul := ops.txGenLinear ll.2 st.sgl
  let uq := ops.txGenQuantum lq.2 st.sgq
  (⟨ops.applyGenQuantum gqFrozen uq.1, ops.applyGenLinear glFrozen ul.1, a.c,
      uq.2, ul.2, a.sc⟩,
    (lq.1, ll.1, a.lossC), ks.getD 0 0, a.cursor)

theorem criticLoop_cursor {Pq Pl Pc Sq Sl Sc Gq Gl Gc Z R : Type}
    (ops : TrainOps Pq Pl Pc Sq Sl Sc Gq Gl Gc Z R) (gq : Pq) (gl : Pl) :
    ∀ (n : ℕ) (a : CriticAcc Pc Sc),
      ((List.range n).foldl (fun a _ => criticIter ops gq gl a) a).cursor =
        a.cursor + n := by
  intro n
  induction n with
  | zero => intro a; simp
  | succ n ih =>
    intro a
    rw [List.range_succ, List.foldl_append, List.foldl_cons, List.foldl_nil]
    have h : ∀ b : CriticAcc Pc Sc, (criticIter ops gq gl b).cursor = b.cursor + 1 :=
      fun b => rfl
    rw [h, ih a]
    omega

/-- C2: the joint training step is exactly the claimed composition — the
critic loop first, then a shared fresh latent batch and shot-noise token
grid, both generator gradients evaluated against the frozen pre-update
snapshot of the other group, and only then one optimizer step per group —
and the critic loop consumes one fresh real batch per critic update. -/
theorem joint_train_step_structure {Pq Pl Pc Sq Sl Sc Gq Gl Gc Z R : Type}
    (ops : TrainOps Pq Pl Pc Sq Sl Sc Gq Gl Gc Z R)
    (st : TrainState Pq Pl Pc Sq Sl Sc) (key cursor : ℕ) :
    trainStep ops st key cursor = trainStepSpec ops st key cursor ∧
    (criticPhase ops st key cursor).cursor = cursor + ops.nCritic :=
  ⟨rfl, criticLoop_cursor ops st.gq st.gl ops.nCritic ⟨st.c, st.sc, key, cursor, 0⟩⟩

/-! ## The critic loss (source: `compute_grads_critic`) and the generator
pipeline (source: the shared body of the three `compute_grads_*` closures).

`evalCirc` embeds `GeneratorQuantum.evaluate_circuit` (the tensorcircuit
statevector simulation, external), `linApply` embeds the `eqx.nn.Linear`
readout, `critic` embeds the critic MLP and `criticGradX` embeds
`critic_forward`, the per-row autodiff gradient of the critic in its
input. -/

/-- Scalar–vector product (row broadcasting of `epsilon`). -/
def vsmul (c : ℚ) (v : List ℚ) : List ℚ := v.map (fun a => c * a)

/-- Elementwise vector sum. -/
def vaddL (v w : List ℚ) : List ℚ := List.zipWith (fun a b => a + b) v w

/-- Sum of squares of a row; `jnp.linalg.norm(row)` is `sq` of this. -/
def sumSq (v : List ℚ) : ℚ := (v.map (fun a => a * a)).sum

/-- `CircuitSampler` followed by `ShotNoiseModel`:
`fake_batch_intermediate = vmap(generator_quantum)(z)` (one expectation per
observable, in enumeration order) and
`fake_batch_sampled = vmap(vmap(add_sampling_error))(…, n_shots, keys)`. -/
def circuitThenNoise {Pq : Type} (evalCirc : Pq → List ℚ → List (Fin 4) → ℚ)
    (sq : ℚ → ℚ) (nrm : ℕ → ℚ) (obs : List (List (Fin 4))) (nShots : ℚ)
    (gq : Pq) (z : List (List ℚ)) (keys : List (List ℕ)) : List (List ℚ) :=
  let inter := z.map (fun zb => obs.map (fun o => evalCirc gq zb o))
  List.zipWith
    (fun row krow => List.zipWith (fun e k => add_sampling_error sq nrm e nShots k) row krow)
    inter keys

/-- The full generator pipeline: sampler, shot noise, linear readout. -/
def generatorFake {Pq Pl : Type} (evalCirc : Pq → List ℚ → List (Fin 4) → ℚ)
    (linApply : Pl → List ℚ → List ℚ) (sq : ℚ → ℚ) (nrm : ℕ → ℚ)
    (obs : List (List (Fin 4))) (nShots : ℚ) (gq : Pq) (gl : Pl)
    (z : List (List ℚ)) (keys : List (List ℕ)) : List (List ℚ) :=
  (circuitThenNoise evalCirc sq nrm obs nShots gq z keys).map (fun r => linApply gl r)

/-- Source `compute_grads_critic` loss:
fake batch through the generator pipeline; `fake_value`, `real_value`;
`epsilon = uniform(key, (batch_size, 1))`;
`data_mix = real_batch * epsilon + fake_batch * (1 - epsilon)`;
`grads = critic_forward(data_mix, critic)`;
`gradient_penalty = mean((norm(grads, axis=1) - 1) ** 2)`;
`loss = -mean(real_value) + mean(fake_value) + lambda_gp * gradient_penalty`.
`uniformEps` embeds the per-sample uniform draw on a key. -/
def critic_loss {Pq Pl Pc : Type} (critic : Pc → List ℚ → ℚ)
    (criticGradX : Pc → List ℚ → List ℚ) (evalCirc : Pq → List ℚ → List (Fin 4) → ℚ)
    (linApply : Pl → List ℚ → List ℚ) (sq : ℚ → ℚ) (nrm : ℕ → ℚ)
    (obs : List (List (Fin 4))) (nShots : ℚ) (uniformEps : ℕ → ℕ → List ℚ)
    (lambdaGp : ℚ) (batchSize : ℕ) (cp : Pc) (gq : Pq) (gl : Pl)
    (realBatch : List (List ℚ)) (z : List (List ℚ)) (key : ℕ)
    (keys : List (List ℕ)) : ℚ :=
  let fake := generatorFake evalCirc linApply sq nrm obs nShots gq gl z keys
  let fakeValue := fake.map (fun r => critic cp r)
  let realValue := realBatch.map (fun r => critic cp r)
  let epsilon := uniformEps key batchSize
  let dataMix := List.zipWith
    (fun e rf => vaddL (vsmul e rf.1) (vsmul (1 - e) rf.2)) epsilon (realBatch.zip fake)
  let grads := dataMix.map (fun v => criticGradX cp v)
  let gradNorm := grads.map (fun g => sq (sumSq g))
  let gradientPenalty := mean (gradNorm.map (fun t => (t - 1) * (t - 1)))
  let loss := -(mean realValue) + mean fakeValue + lambdaGp * gradientPenalty
  loss

/-- The critic loss as claim C3 words it:
`mean(critic(fake)) - mean(critic(real)) + λ_gp · gradient_penalty` with
`gradient_penalty = mean((‖∇_x critic(x̃)‖₂ - 1)²)` at the interpolates
`x̃ = ε·real + (1-ε)·fake`, `ε` drawn per batch sample. -/
def critic_loss_spec {Pq Pl Pc : Type} (critic : Pc → List ℚ → ℚ)
    (criticGradX : Pc → List ℚ → List ℚ) (evalCirc : Pq → List ℚ → List (Fin 4) → ℚ)
    (linApply : Pl → List ℚ → List ℚ) (sq : ℚ → ℚ) (nrm : ℕ → ℚ)
    (obs : List (List (Fin 4))) (nShots : ℚ) (uniformEps : ℕ → ℕ → List ℚ)
    (lambdaGp : ℚ) (batchSize : ℕ) (cp : Pc) (gq : Pq) (gl : Pl)
    (realBatch : List (List ℚ)) (z : List (List ℚ)) (key : ℕ)
    (keys : List (List ℕ)) : ℚ :=
  let fake := generatorFake evalCirc linApply sq nrm obs nShots gq gl z keys
  let interpolates := List.zipWith
    (fun e rf => vaddL (vsmul e rf.1) (vsmul (1 - e) rf.2))
    (uniformEps key batchSize) (realBatch.zip fake)
  let gradientPenalty :=
    mean (interpolates.map (fun v => (sq (sumSq (criticGradX cp v)) - 1) *
      (sq (sumSq (criticGradX cp v)) - 1)))
  mean (fake.map (fun r => critic cp r)) - mean (realBatch.map (fun r => critic cp r)) +
    lambdaGp * gradientPenalty

/-- C3: the critic update minimizes exactly the claimed
Wasserstein-gradient-penalty loss, and the critic phase touches only the
critic: in the training step the two generator parameter groups and their
optimizer states reach the generator phase unchanged — the emitted
generator parameters are computed from the *input* generator parameters and
the *input* generator optimizer states, the critic phase having produced
only the new critic parameters. -/
theorem critic_loss_and_isolation {Pq Pl Pc Sq Sl Sc Gq Gl Gc Z R : Type}
    (critic : Pc → List ℚ → ℚ) (criticGradX : Pc → List ℚ → List ℚ)
    (evalCirc : Pq → List ℚ → List (Fin 4) → ℚ) (linApply : Pl → List ℚ → List ℚ)
    (sq : ℚ → ℚ) (nrm : ℕ → ℚ) (obs : List (List (Fin 4))) (nShots : ℚ)
    (uniformEps : ℕ → ℕ → List ℚ) (lambdaGp : ℚ) (batchSize : ℕ)
    (cp : Pc) (gq : Pq) (gl : Pl) (realBatch z : List (List ℚ)) (key : ℕ)
    (keys : List (List ℕ))
    (ops : TrainOps Pq Pl Pc Sq Sl Sc Gq Gl Gc Z R)
    (st : TrainState Pq Pl Pc Sq Sl Sc) (tkey tcursor : ℕ) :
    critic_loss critic criticGradX evalCirc linApply sq nrm obs nShots uniformEps
        lambdaGp batchSize cp gq gl realBatch z key keys =
      critic_loss_spec critic criticGradX evalCirc linApply sq nrm obs nShots uniformEps
        lambdaGp batchSize cp gq gl realBatch z key keys ∧
    (trainStep ops st tkey tcursor).1.gl =
      ops.applyGenLinear st.gl
        (ops.txGenLinear
          (ops.gradsGenLinear st.gl st.gq (criticPhase ops st tkey tcursor).c
            (ops.sampleZ ((splitKey (criticPhase ops st tkey tcursor).key 3).getD 1 0))
            (shotKeys ((splitKey (criticPhase ops st tkey tcursor).key 3).getD 2 0)
              ops.nObs ops.batchSize)).2 st.sgl).1 ∧
    (trainStep ops st tkey tcursor).1.gq =
      ops.applyGenQuantum st.gq
        (ops.txGenQuantum
          (ops.gradsGenQuantum st.gq st.gl (criticPhase ops st tkey tcursor).c
            (ops.sampleZ ((splitKey (criticPhase ops st tkey tcursor).key 3).getD 1 0))
            (shotKeys ((splitKey (criticPhase ops st tkey tcursor).key 3).getD 2 0)
              ops.nObs ops.batchSize)).2 st.sgq).1 := by
  refine ⟨?_, rfl, rfl⟩
  simp only [critic_loss, critic_loss_spec, List.map_map, Function.comp]
  ring_nf
  rfl

/-! ## Determinism and seed-token discipline (C9) -/

theorem key_lt_pair_two (k : ℕ) : k < Nat.pair k 2 :=
  lt_of_le_of_lt (Nat.left_le_pair k 0) (Nat.pair_lt_pair_right k (by norm_num))

theorem shotKeys_mem {k n B x : ℕ} (hx : x ∈ (shotKeys k n B).flatten) :
    ∃ b o, b < B ∧ o < n ∧ x = Nat.pair k (b * n + o) := by
  rw [List.mem_flatten] at hx
  obtain ⟨row, hrow, hxrow⟩ := hx
  unfold shotKeys at hrow
  obtain ⟨b, hb, rfl⟩ := List.mem_map.1 hrow
  obtain ⟨o, ho, rfl⟩ := List.mem_map.1 hxrow
  exact ⟨b, o, List.mem_range.1 hb, List.mem_range.1 ho, rfl⟩

theorem shotKeys_index_inj {b1 o1 b2 o2 n : ℕ} (ho1 : o1 < n) (ho2 : o2 < n)
    (h : b1 * n + o1 = b2 * n + o2) : b1 = b2 ∧ o1 = o2 := by
  rcases Nat.lt_trichotomy b1 b2 with hb | hb | hb
  · exfalso
    have h1 : b1 * n + o1 < (b1 + 1) * n := by
      rw [Nat.succ_mul]
      omega
    have h2 : (b1 + 1) * n ≤ b2 * n := Nat.mul_le_mul_right n (by omega)
    omega
  · subst hb
    omega
  · exfalso
    have h1 : b2 * n + o2 < (b2 + 1) * n := by
      rw [Nat.succ_mul]
      omega
    have h2 : (b2 + 1) * n ≤ b1 * n := Nat.mul_le_mul_right n (by omega)
    omega

theorem shotKeys_flatten_nodup (k n B : ℕ) : ((shotKeys k n B).flatten).Nodup := by
  rw [List.nodup_flatten]
  constructor
  · intro l hl
    unfold shotKeys at hl
    obtain ⟨b, _, rfl⟩ := List.mem_map.1 hl
    refine List.Nodup.map ?_ (List.nodup_range n)
    intro o1 o2 h
    have := (Nat.pair_eq_pair.1 h).2
    omega
  · unfold shotKeys
    rw [List.pairwise_map]
    refine List.Pairwise.imp ?_ (List.pairwise_lt_range B)
    intro b1 b2 hb x hx1 hx2
    obtain ⟨o1, ho1, rfl⟩ := List.mem_map.1 hx1
    obtain ⟨o2, ho2, he⟩ := List.mem_map.1 hx2
    have hidx := (Nat.pair_eq_pair.1 he.symm).2
    have := shotKeys_index_inj (List.mem_range.1 ho1) (List.mem_range.1 ho2) hidx
    omega

/-- C9: the pipeline is deterministic in its explicit seed tokens — running
CircuitSampler followed by ShotNoiseModel twice on equal latent batches
with equal seed-token grids yields identical outputs, and two runs of the
whole training step from equal parameter, optimizer-state, key and cursor
inputs produce equal outputs — and the seed tokens of the generator phase
are all distinct: the latent-sampling token differs from the shot-noise
parent token, the shot-noise token grid is duplicate-free, and the
latent-sampling token never occurs in it. -/
theorem pipeline_determinism_and_token_discipline
    {Pq Pl Pc Sq Sl Sc Gq Gl Gc Z R : Type}
    (ops : TrainOps Pq Pl Pc Sq Sl Sc Gq Gl Gc Z R)
    (st st' : TrainState Pq Pl Pc Sq Sl Sc) (key key' cursor cursor' : ℕ)
    (evalCirc : Pq → List ℚ → List (Fin 4) → ℚ) (sq : ℚ → ℚ) (nrm : ℕ → ℚ)
    (obs : List (List (Fin 4))) (nShots : ℚ) (gq : Pq)
    (z z' : List (List ℚ)) (keys keys' : List (List ℕ)) :
    (z = z' → keys = keys' →
      circuitThenNoise evalCirc sq nrm obs nShots gq z keys =
        circuitThenNoise evalCirc sq nrm obs nShots gq z' keys') ∧
    (st = st' → key = key' → cursor = cursor' →
      trainStep ops st key cursor = trainStep ops st' key' cursor') ∧
    ((splitKey key 3).getD 1 0 ≠ (splitKey key 3).getD 2 0 ∧
      ((shotKeys ((splitKey key 3).getD 2 0) ops.nObs ops.batchSize).flatten).Nodup ∧
      (splitKey key 3).getD 1 0 ∉
        (shotKeys ((splitKey key 3).getD 2 0) ops.nObs ops.batchSize).flatten) := by
  refine ⟨?_, ?_, ?_, ?_, ?_⟩
  · intro hz hk
    rw [hz, hk]
  · intro hst hk hc
    rw [hst, hk, hc]
  · show Nat.pair key 1 ≠ Nat.pair key 2
    intro h
    have := (Nat.pair_eq_pair.1 h).2
    omega
  · exact shotKeys_flatten_nodup _ _ _
  · show Nat.pair key 1 ∉ _
    intro hmem
    have hred : (splitKey key 3).getD 2 0 = Nat.pair key 2 := rfl
    rw [hred] at hmem
    obtain ⟨b, o, _, _, he⟩ := shotKeys_mem hmem
    have hp := Nat.pair_eq_pair.1 he
    have := key_lt_pair_two key
    omega

/-- Trivial instantiation of the training operations, used by the witness. -/
def trivialOps : TrainOps Unit Unit Unit Unit Unit Unit Unit Unit Unit Unit Unit where
  nCritic := 1
  nObs := 1
  batchSize := 1
  loader := fun _ => ()
  sampleZ := fun _ => ()
  gradsCritic := fun _ _ _ _ _ _ _ => (0, ())
  gradsGenLinear := fun _ _ _ _ _ => (0, ())
  gradsGenQuantum := fun _ _ _ _ _ => (0, ())
  txCritic := fun g s => (g, s)
  txGenLinear := fun g s => (g, s)
  txGenQuantum := fun g s => (g, s)
  applyCritic := fun p _ => p
  applyGenLinear := fun p _ => p
  applyGenQuantum := fun p _ => p

/-- Witness for `pipeline_determinism_and_token_discipline` at a concrete
trivial instantiation with key `0`. -/
theorem pipeline_determinism_witness :
    (circuitThenNoise (fun (_ : Unit) _ _ => (0 : ℚ)) id (fun _ => 0) [] 0 () [] [] =
      circuitThenNoise (fun (_ : Unit) _ _ => (0 : ℚ)) id (fun _ => 0) [] 0 () [] []) ∧
    (trainStep trivialOps ⟨(), (), (), (), (), ()⟩ 0 0 =
      trainStep trivialOps ⟨(), (), (), (), (), ()⟩ 0 0) ∧
    ((splitKey 0 3).getD 1 0 ≠ (splitKey 0 3).getD 2 0 ∧
      ((shotKeys ((splitKey 0 3).getD 2 0) trivialOps.nObs trivialOps.batchSize).flatten).Nodup ∧
      (splitKey 0 3).getD 1 0 ∉
        (shotKeys ((splitKey 0 3).getD 2 0) trivialOps.nObs trivialOps.batchSize).flatten) := by
  have h := pipeline_determinism_and_token_discipline trivialOps
    ⟨(), (), (), (), (), ()⟩ ⟨(), (), (), (), (), ()⟩ 0 0 0 0
    (fun (_ : Unit) _ _ => (0 : ℚ)) id (fun _ => 0) [] 0 () [] [] [] []
  exact ⟨h.1 rfl rfl, h.2.1 rfl rfl rfl, h.2.2⟩

end OTEVS
